import Mathlib

/-!
Shallow embedding of `generate_seed_sql.py`: a one-shot utility that reads a
CSV of interview applicants, normalizes date/time fields, deduplicates by
application number, escapes SQL string literals, and emits batched
`INSERT ... ON CONFLICT` statements.

CSV rows are modelled as `List String` (the fields produced by the CSV
reader); the whole file is a `List (List String)`.  Uncaught Python
exceptions (`StopIteration` from the header skip, `IndexError` from
out-of-range column access) are modelled by `Except ProgError`.
-/

namespace SeedSql

/-- Uncaught exceptions the script can die with. -/
inductive ProgError where
  | stopIteration
  | indexError
deriving DecidableEq, Repr

/-- The single-quote character, used by the SQL escaper and literals. -/
def squote : Char := Char.ofNat 39

/-- One-character string holding a single quote. -/
def squoteStr : String := ⟨[squote]⟩

/-- Whitespace set of Python `str.strip` (ASCII part) and of `\s` in the
`strptime` regexes: space, tab, newline, carriage return, vertical tab,
form feed. -/
def pyWs (c : Char) : Bool :=
  c = ' ' || c = '\t' || c = '\n' || c = '\r' || c = Char.ofNat 11 || c = Char.ofNat 12

/-- Python `str.strip()`: drop leading and trailing whitespace. -/
def pyStrip (s : String) : String :=
  ⟨((s.data.dropWhile pyWs).reverse.dropWhile pyWs).reverse⟩

/-- Numeric value of a decimal digit character. -/
def digitVal (c : Char) : Nat := c.toNat - 48

/-- Value of a digit string, as Python `int` on a decimal-digit group. -/
def digitsToNat (l : List Char) : Nat :=
  l.foldl (fun n c => 10 * n + digitVal c) 0

/-- All characters are ASCII decimal digits. -/
def allDigits (l : List Char) : Bool := l.all Char.isDigit

/-- Two-digit zero-padded rendering (strftime `%d`, `%m`, `%H`, `%M`, `%S`;
all uses have `n < 100`). -/
def pad2 (n : Nat) : List Char :=
  [Nat.digitChar (n / 10), Nat.digitChar (n % 10)]

/-- Four-digit zero-padded rendering (strftime `%Y`; all uses have
`n < 10000`). -/
def pad4 (n : Nat) : List Char :=
  [Nat.digitChar (n / 1000), Nat.digitChar (n / 100 % 10),
   Nat.digitChar (n / 10 % 10), Nat.digitChar (n % 10)]

/-- Split a character list at every occurrence of `sep` (occurrences are
dropped; empty pieces are kept, like `re` alternation boundaries). -/
def splitOn (sep : Char) : List Char → List (List Char)
  | [] => [[]]
  | c :: cs =>
    if c = sep then [] :: splitOn sep cs
    else
      match splitOn sep cs with
      | [] => [[c]]
      | p :: ps => (c :: p) :: ps

/-- Proleptic Gregorian leap-year rule used by `datetime`. -/
def isLeap (y : Nat) : Bool :=
  y % 4 = 0 && (y % 100 ≠ 0 || y % 400 = 0)

/-- Days in a month, as validated by the `datetime` constructor. -/
def daysInMonth (y m : Nat) : Nat :=
  if m = 2 then (if isLeap y then 29 else 28)
  else if m = 4 || m = 6 || m = 9 || m = 11 then 30
  else 31

/-- strftime of a `datetime` date with format `%Y-%m-%d`. -/
def renderISO (y m d : Nat) : List Char :=
  pad4 y ++ '-' :: (pad2 m ++ '-' :: pad2 d)

/-- `parse_date` from the source: `strptime(date_str, '%d/%m/%Y')` then
`strftime('%Y-%m-%d')`, with any `ValueError` mapped to `none`.
The `%d` regex accepts 1-2 digits valued 1-31, `%m` 1-2 digits valued 1-12,
`%Y` exactly 4 digits; the `datetime` constructor additionally requires
`1 ≤ year` and the day to exist in the month. -/
def parse_date (date_str : String) : Option String :=
  match splitOn '/' date_str.data with
  | [dcs, mcs, ycs] =>
    if allDigits dcs = true ∧ 1 ≤ dcs.length ∧ dcs.length ≤ 2
        ∧ allDigits mcs = true ∧ 1 ≤ mcs.length ∧ mcs.length ≤ 2
        ∧ allDigits ycs = true ∧ ycs.length = 4
        ∧ 1 ≤ digitsToNat dcs ∧ digitsToNat dcs ≤ 31
        ∧ 1 ≤ digitsToNat mcs ∧ digitsToNat mcs ≤ 12
        ∧ 1 ≤ digitsToNat ycs
        ∧ digitsToNat dcs ≤ daysInMonth (digitsToNat ycs) (digitsToNat mcs)
    then some ⟨renderISO (digitsToNat ycs) (digitsToNat mcs) (digitsToNat dcs)⟩
    else none
  | _ => none

/-- `parse_time` from the source: `strptime(time_str, '%I:%M %p')` then
`strftime('%H:%M:%S')`, with any `ValueError` mapped to `none`.
The `%I` regex accepts 1-2 digits valued 1-12, `%M` 1-2 digits valued 0-59,
the format-string space one or more whitespace characters, and `%p` the
words AM/PM case-insensitively; `%S` defaults to 0. -/
def parse_time (time_str : String) : Option String :=
  match splitOn ':' time_str.data with
  | [hcs, rest] =>
    let mcs := rest.takeWhile Char.isDigit
    let rest2 := rest.dropWhile Char.isDigit
    let wcs := rest2.takeWhile pyWs
    let pcs := rest2.dropWhile pyWs
    if allDigits hcs = true ∧ 1 ≤ hcs.length ∧ hcs.length ≤ 2
        ∧ 1 ≤ digitsToNat hcs ∧ digitsToNat hcs ≤ 12
        ∧ 1 ≤ mcs.length ∧ mcs.length ≤ 2 ∧ digitsToNat mcs ≤ 59
        ∧ 1 ≤ wcs.length
        ∧ (pcs.map Char.toUpper = "AM".data ∨ pcs.map Char.toUpper = "PM".data)
    then
      let hv := digitsToNat hcs
      let h24 := if pcs.map Char.toUpper = "PM".data
                 then (if hv = 12 then 12 else hv + 12)
                 else (if hv = 12 then 0 else hv)
      some ⟨pad2 h24 ++ ':' :: (pad2 (digitsToNat mcs) ++ ':' :: pad2 0)⟩
    else none
  | _ => none

/-- Python `val.replace` of a single quote by two single quotes, at the
character level. -/
def doubleQuotes : List Char → List Char
  | [] => []
  | c :: cs =>
    if c = squote then squote :: squote :: doubleQuotes cs
    else c :: doubleQuotes cs

/-- `escape_sql` from the source: `None` becomes the bare keyword `NULL`,
a string becomes a single-quoted literal with embedded quotes doubled. -/
def escape_sql : Option String → String
  | none => "NULL"
  | some v => squoteStr ++ ⟨doubleQuotes v.data⟩ ++ squoteStr

/-- The trimmed application number of a row: `row[0].strip()` (`""` when the
row is empty, in which case the script never reads it). -/
def keyOf (row : List String) : String := pyStrip (row.headD "")

/-- The literal `'REGISTERED'` with which every value tuple ends. -/
def registeredLit : String := squoteStr ++ "REGISTERED" ++ squoteStr

/-- The `val_str` f-string of the source: the parenthesized value tuple
built from one CSV row (fields trimmed, date/time normalized, all escaped,
status the constant literal). -/
def renderOfRow (row : List String) : String :=
  "(" ++ escape_sql (some (pyStrip (row.headD "")))
  ++ ", " ++ escape_sql (some (pyStrip (row.getD 1 "")))
  ++ ", " ++ escape_sql (some (pyStrip (row.getD 2 "")))
  ++ ", " ++ escape_sql (some (pyStrip (row.getD 3 "")))
  ++ ", " ++ escape_sql (some (pyStrip (row.getD 4 "")))
  ++ ", " ++ escape_sql (parse_date (pyStrip (row.getD 5 "")))
  ++ ", " ++ escape_sql (parse_time (pyStrip (row.getD 6 "")))
  ++ ", " ++ escape_sql (some (pyStrip (row.getD 7 "")))
  ++ ", " ++ escape_sql (some (pyStrip (row.getD 8 "")))
  ++ ", " ++ registeredLit ++ ")"

/-- The row loop of the source.  `seen` is the `seen_apps` set (as a list).
Empty rows are skipped; rows with an empty or already-seen application
number are skipped; a surviving row with fewer than 9 columns dies with
`IndexError`; otherwise its rendered tuple is appended and its key
remembered. -/
def processRows : List (List String) → List String → Except ProgError (List String)
  | [], _ => Except.ok []
  | row :: rest, seen =>
    if row.isEmpty then processRows rest seen
    else if keyOf row = "" ∨ keyOf row ∈ seen then processRows rest seen
    else if row.length < 9 then Except.error ProgError.indexError
    else (processRows rest (keyOf row :: seen)).map (fun l => renderOfRow row :: l)

/-- Fuel-driven batching helper (fuel bounds the recursion depth; the fuel
is always instantiated with the list length, which suffices). -/
def batchesAux : Nat → List String → List (List String)
  | 0, _ => []
  | _, [] => []
  | fuel + 1, l => l.take 1000 :: batchesAux fuel (l.drop 1000)

/-- The batch slicing `values_list[i:i+1000]` for `i in range(0, len, 1000)`:
consecutive chunks of at most 1000 tuples. -/
def batches (l : List String) : List (List String) := batchesAux l.length l

/-- Expected chunk lengths of a list of length `n` (spec-side companion of
`batches`, same fuel pattern). -/
def chunkLensAux : Nat → Nat → List Nat
  | 0, _ => []
  | fuel + 1, n => if n = 0 then [] else min 1000 n :: chunkLensAux fuel (n - 1000)

/-- Column-list head of every generated statement (source line 73). -/
def insert_header : String :=
  "INSERT INTO applicants (application_number, name, phone, program, campus, date, time, location, instructions, status) VALUES \n"

/-- The `DO UPDATE SET` assignment list of every generated statement
(source line 76, before its trailing newlines). -/
def update_set_clause : String :=
  "name = EXCLUDED.name, phone = EXCLUDED.phone, program = EXCLUDED.program, campus = EXCLUDED.campus, date = EXCLUDED.date, time = EXCLUDED.time, location = EXCLUDED.location, instructions = EXCLUDED.instructions;"

/-- One complete generated statement for a batch of rendered tuples
(source lines 73-76). -/
def sql_statement (batch : List String) : String :=
  insert_header ++ String.intercalate ",\n" batch
  ++ "\nON CONFLICT (application_number) DO UPDATE SET \n"
  ++ update_set_clause ++ "\n\n"

/-- The comment header written first to the output file (source line 69). -/
def commentHeader : String := "-- Seed data for applicants table\n"

/-- Everything written to the output file for a given tuple list
(source lines 68-77). -/
def output_text (values_list : List String) : String :=
  commentHeader ++ String.join ((batches values_list).map sql_statement)

/-- The whole script on the parsed CSV row list: an empty file makes
`next(reader)` raise `StopIteration`; otherwise the first row is the
discarded header, the rest are processed, and on success the output text
is produced. -/
def run_program (csv_rows : List (List String)) : Except ProgError String :=
  match csv_rows with
  | [] => Except.error ProgError.stopIteration
  | _header :: rows =>
    match processRows rows [] with
    | Except.error e => Except.error e
    | Except.ok vals => Except.ok (output_text vals)

/-- Boolean list-prefix test (for substring statements). -/
def listPrefixOf : List Char → List Char → Bool
  | [], _ => true
  | _ :: _, [] => false
  | a :: as, b :: bs => a = b && listPrefixOf as bs

/-- Boolean substring test on character lists. -/
def listSub (needle : List Char) : List Char → Bool
  | [] => needle.isEmpty
  | c :: hs => listPrefixOf needle (c :: hs) || listSub needle hs

/-- Spec-side description of the deduplicating row processor: keep exactly
the non-empty rows whose trimmed application number is non-empty and not
seen before (first occurrence wins), in input order. -/
def firstSeen : List (List String) → List String → List (List String)
  | [], _ => []
  | row :: rest, seen =>
    if ¬row.isEmpty = true ∧ keyOf row ≠ "" ∧ keyOf row ∉ seen
    then row :: firstSeen rest (keyOf row :: seen)
    else firstSeen rest seen

/-! ### Digit-rendering lemmas -/

theorem digitChar_isDigit {n : Nat} (h : n < 10) : (Nat.digitChar n).isDigit = true := by
  interval_cases n <;> decide

theorem digitVal_digitChar {n : Nat} (h : n < 10) : digitVal (Nat.digitChar n) = n := by
  interval_cases n <;> decide

theorem allDigits_pad2 {n : Nat} (h : n < 100) : allDigits (pad2 n) = true := by
  simp only [allDigits, pad2, List.all_cons, List.all_nil, Bool.and_true, Bool.and_eq_true]
  exact ⟨digitChar_isDigit (by omega), digitChar_isDigit (by omega)⟩

theorem allDigits_pad4 {n : Nat} (h : n < 10000) : allDigits (pad4 n) = true := by
  simp only [allDigits, pad4, List.all_cons, List.all_nil, Bool.and_true, Bool.and_eq_true]
  exact ⟨digitChar_isDigit (by omega), digitChar_isDigit (by omega),
    digitChar_isDigit (by omega), digitChar_isDigit (by omega)⟩

theorem digitsToNat_pad2 {n : Nat} (h : n < 100) : digitsToNat (pad2 n) = n := by
  simp only [digitsToNat, pad2, List.foldl]
  rw [digitVal_digitChar (by omega), digitVal_digitChar (by omega)]
  omega

theorem digitsToNat_pad4 {n : Nat} (h : n < 10000) : digitsToNat (pad4 n) = n := by
  simp only [digitsToNat, pad4, List.foldl]
  rw [digitVal_digitChar (by omega), digitVal_digitChar (by omega),
    digitVal_digitChar (by omega), digitVal_digitChar (by omega)]
  omega

theorem not_mem_of_allDigits {l : List Char} {c : Char}
    (hl : allDigits l = true) (hc : c.isDigit = false) : c ∉ l := by
  intro hmem
  have := List.all_eq_true.mp hl c hmem
  simp [hc] at this

/-! ### `splitOn` lemmas -/

/-- Rejoin pieces with the separator (left inverse of `splitOn`). -/
def joinSep (sep : Char) : List (List Char) → List Char
  | [] => []
  | [p] => p
  | p :: ps => p ++ sep :: joinSep sep ps

theorem splitOn_ne_nil (sep : Char) : ∀ l : List Char, splitOn sep l ≠ [] := by
  intro l
  induction l with
  | nil => simp [splitOn]
  | cons c cs ih =>
    simp only [splitOn]
    split
    · simp
    · cases h : splitOn sep cs with
      | nil => simp
      | cons p ps => simp [h]

theorem joinSep_splitOn (sep : Char) : ∀ l : List Char, joinSep sep (splitOn sep l) = l := by
  intro l
  induction l with
  | nil => simp [splitOn, joinSep]
  | cons c cs ih =>
    simp only [splitOn]
    split
    · rename_i hc
      cases h : splitOn sep cs with
      | nil => exact absurd h (splitOn_ne_nil sep cs)
      | cons p ps =>
        rw [h] at ih
        cases ps with
        | nil => simp [joinSep, ← ih, hc]
        | cons q qs => simp [joinSep, ← ih, hc]
    · cases h : splitOn sep cs with
      | nil => exact absurd h (splitOn_ne_nil sep cs)
      | cons p ps =>
        rw [h] at ih
        cases ps with
        | nil => simp [joinSep, ← ih]
        | cons q qs => simp [joinSep] at ih ⊢; simp [← ih]

theorem splitOn_not_mem (sep : Char) :
    ∀ l p, p ∈ splitOn sep l → sep ∉ p := by
  intro l
  induction l with
  | nil => intro p hp; simp [splitOn] at hp; simp [hp]
  | cons c cs ih =>
    intro p hp
    simp only [splitOn] at hp
    split at hp
    · rcases List.mem_cons.mp hp with h | h
      · simp [h]
      · exact ih p h
    · rename_i hc
      cases h : splitOn sep cs with
      | nil => exact absurd h (splitOn_ne_nil sep cs)
      | cons q qs =>
        rw [h] at hp
        rcases List.mem_cons.mp hp with h2 | h2
        · subst h2
          intro hmem
          rcases List.mem_cons.mp hmem with h3 | h3
          · exact hc h3.symm
          · exact ih q (h ▸ List.mem_cons_self q qs) h3
        · exact ih p (h ▸ List.mem_cons.mpr (Or.inr h2))

theorem splitOn_append {sep : Char} :
    ∀ {a : List Char} (rest : List Char), sep ∉ a →
      splitOn sep (a ++ sep :: rest) = a :: splitOn sep rest := by
  intro a
  induction a with
  | nil => intro rest _; simp [splitOn]
  | cons c cs ih =>
    intro rest ha
    have hc : ¬c = sep := fun h => ha (h ▸ List.mem_cons_self c cs)
    have hcs : sep ∉ cs := fun h => ha (List.mem_cons.mpr (Or.inr h))
    show splitOn sep (c :: (cs ++ sep :: rest)) = _
    simp only [splitOn, if_neg hc]
    rw [ih rest hcs]

theorem splitOn_no_sep {sep : Char} :
    ∀ {a : List Char}, sep ∉ a → splitOn sep a = [a] := by
  intro a
  induction a with
  | nil => intro _; simp [splitOn]
  | cons c cs ih =>
    intro ha
    have hc : ¬c = sep := fun h => ha (h ▸ List.mem_cons_self c cs)
    have hcs : sep ∉ cs := fun h => ha (List.mem_cons.mpr (Or.inr h))
    simp only [splitOn, if_neg hc, ih hcs]

theorem splitOn_two_inv {sep : Char} {l a b : List Char}
    (h : splitOn sep l = [a, b]) : l = a ++ sep :: b := by
  have := joinSep_splitOn sep l
  rw [h] at this
  simpa [joinSep] using this.symm

theorem splitOn_three_inv {sep : Char} {l a b c : List Char}
    (h : splitOn sep l = [a, b, c]) : l = a ++ sep :: (b ++ sep :: c) := by
  have := joinSep_splitOn sep l
  rw [h] at this
  simpa [joinSep] using this.symm

/-! ### `takeWhile` / `dropWhile` on an all-true prefix -/

theorem takeWhile_all_append {p : Char → Bool} :
    ∀ {xs : List Char} {y : Char} (ys : List Char),
      (∀ c ∈ xs, p c = true) → p y = false →
      (xs ++ y :: ys).takeWhile p = xs := by
  intro xs
  induction xs with
  | nil => intro y ys _ hy; simp [List.takeWhile, hy]
  | cons x xt ih =>
    intro y ys hall hy
    have hx : p x = true := hall x (List.mem_cons_self x xt)
    simp only [List.cons_append, List.takeWhile, hx]
    rw [show xt.append (y :: ys) = xt ++ y :: ys from rfl,
      ih ys (fun c hc => hall c (List.mem_cons.mpr (Or.inr hc))) hy]

theorem dropWhile_all_append {p : Char → Bool} :
    ∀ {xs : List Char} {y : Char} (ys : List Char),
      (∀ c ∈ xs, p c = true) → p y = false →
      (xs ++ y :: ys).dropWhile p = y :: ys := by
  intro xs
  induction xs with
  | nil => intro y ys _ hy; simp [List.dropWhile, hy]
  | cons x xt ih =>
    intro y ys hall hy
    have hx : p x = true := hall x (List.mem_cons_self x xt)
    simp only [List.cons_append, List.dropWhile, hx]
    rw [show xt.append (y :: ys) = xt ++ y :: ys from rfl]
    exact ih ys (fun c hc => hall c (List.mem_cons.mpr (Or.inr hc))) hy

/-! ### Batching lemmas -/

theorem batchesAux_flatten :
    ∀ (fuel : Nat) (l : List String), l.length ≤ fuel →
      (batchesAux fuel l).flatten = l := by
  intro fuel
  induction fuel with
  | zero =>
    intro l h
    have : l = [] := List.length_eq_zero.mp (Nat.le_zero.mp h)
    subst this; simp [batchesAux]
  | succ f ih =>
    intro l h
    cases l with
    | nil => simp [batchesAux]
    | cons a as =>
      have hlen : as.length + 1 ≤ f + 1 := by simpa using h
      simp only [batchesAux, List.flatten_cons]
      rw [ih ((a :: as).drop 1000)
        (by simp only [List.length_drop, List.length_cons]; omega)]
      exact List.take_append_drop 1000 (a :: as)

theorem batchesAux_length :
    ∀ (fuel : Nat) (l : List String), l.length ≤ fuel →
      (batchesAux fuel l).length = (l.length + 999) / 1000 := by
  intro fuel
  induction fuel with
  | zero =>
    intro l h
    have : l = [] := List.length_eq_zero.mp (Nat.le_zero.mp h)
    subst this; simp [batchesAux]
  | succ f ih =>
    intro l h
    cases l with
    | nil => simp [batchesAux]
    | cons a as =>
      have hlen : as.length + 1 ≤ f + 1 := by simpa using h
      simp only [batchesAux, List.length_cons]
      rw [ih ((a :: as).drop 1000)
        (by simp only [List.length_drop, List.length_cons]; omega)]
      simp only [List.length_drop, List.length_cons]
      omega

theorem batchesAux_mem :
    ∀ (fuel : Nat) (l : List String) (b : List String), l.length ≤ fuel →
      b ∈ batchesAux fuel l → 1 ≤ b.length ∧ b.length ≤ 1000 := by
  intro fuel
  induction fuel with
  | zero => intro l b _ hb; simp [batchesAux] at hb
  | succ f ih =>
    intro l b h hb
    cases l with
    | nil => simp [batchesAux] at hb
    | cons a as =>
      have hlen : as.length + 1 ≤ f + 1 := by simpa using h
      simp only [batchesAux] at hb
      rcases List.mem_cons.mp hb with h2 | h2
      · subst h2
        simp only [List.length_take, List.length_cons]
        omega
      · exact ih ((a :: as).drop 1000) b
          (by simp only [List.length_drop, List.length_cons]; omega) h2

theorem batchesAux_map_length :
    ∀ (fuel : Nat) (l : List String), l.length ≤ fuel →
      (batchesAux fuel l).map List.length = chunkLensAux fuel l.length := by
  intro fuel
  induction fuel with
  | zero =>
    intro l h
    have : l = [] := List.length_eq_zero.mp (Nat.le_zero.mp h)
    subst this; simp [batchesAux, chunkLensAux]
  | succ f ih =>
    intro l h
    cases l with
    | nil => simp [batchesAux, chunkLensAux]
    | cons a as =>
      have hlen : as.length + 1 ≤ f + 1 := by simpa using h
      simp only [batchesAux, chunkLensAux, List.map_cons]
      rw [if_neg (by simp), ih ((a :: as).drop 1000)
        (by simp only [List.length_drop, List.length_cons]; omega)]
      simp only [List.length_take, List.length_drop, List.length_cons]

/-! ### Row-processing lemmas -/

theorem processRows_ok_spec :
    ∀ (rows : List (List String)) (seen out : List String),
      processRows rows seen = Except.ok out →
      out = (firstSeen rows seen).map renderOfRow := by
  intro rows
  induction rows with
  | nil =>
    intro seen out h
    simp only [processRows, Except.ok.injEq] at h
    simp [firstSeen, ← h]
  | cons row rest ih =>
    intro seen out h
    simp only [processRows] at h
    simp only [firstSeen]
    by_cases h1 : row.isEmpty
    · rw [if_pos h1] at h
      rw [if_neg (by simp [h1])]
      exact ih seen out h
    · rw [if_neg h1] at h
      by_cases h2 : keyOf row = "" ∨ keyOf row ∈ seen
      · rw [if_pos h2] at h
        rw [if_neg (by tauto)]
        exact ih seen out h
      · rw [if_neg h2] at h
        by_cases h3 : row.length < 9
        · rw [if_pos h3] at h
          cases h
        · rw [if_neg h3] at h
          cases heq : processRows rest (keyOf row :: seen) with
          | error e => rw [heq] at h; simp [Except.map] at h
          | ok out2 =>
            rw [heq] at h
            simp only [Except.map, Except.ok.injEq] at h
            rw [if_pos (show ¬row.isEmpty = true ∧ keyOf row ≠ "" ∧ keyOf row ∉ seen
              from ⟨h1, by tauto, by tauto⟩)]
            simp only [List.map_cons, ← h]
            rw [ih (keyOf row :: seen) out2 heq]

theorem firstSeen_sublist :
    ∀ (rows : List (List String)) (seen : List String),
      List.Sublist (firstSeen rows seen) rows := by
  intro rows
  induction rows with
  | nil => intro seen; simp [firstSeen]
  | cons row rest ih =>
    intro seen
    simp only [firstSeen]
    split
    · exact List.Sublist.cons₂ row (ih (keyOf row :: seen))
    · exact List.Sublist.cons row (ih seen)

theorem firstSeen_not_seen :
    ∀ (rows : List (List String)) (seen : List String) (r : List String),
      r ∈ firstSeen rows seen → keyOf r ∉ seen := by
  intro rows
  induction rows with
  | nil => intro seen r hr; simp [firstSeen] at hr
  | cons row rest ih =>
    intro seen r hr
    simp only [firstSeen] at hr
    split at hr
    · rename_i hcond
      rcases List.mem_cons.mp hr with h | h
      · subst h; exact hcond.2.2
      · intro hmem
        exact ih (keyOf row :: seen) r h (List.mem_cons.mpr (Or.inr hmem))
    · exact ih seen r hr

theorem firstSeen_nodup :
    ∀ (rows : List (List String)) (seen : List String),
      ((firstSeen rows seen).map keyOf).Nodup := by
  intro rows
  induction rows with
  | nil => intro seen; simp [firstSeen]
  | cons row rest ih =>
    intro seen
    simp only [firstSeen]
    split
    · simp only [List.map_cons, List.nodup_cons]
      refine ⟨?_, ih (keyOf row :: seen)⟩
      intro hmem
      rcases List.mem_map.mp hmem with ⟨r, hr, hkey⟩
      exact firstSeen_not_seen rest (keyOf row :: seen) r hr
        (hkey ▸ List.mem_cons_self (keyOf row) seen)
    · exact ih seen

theorem firstSeen_first :
    ∀ (rows : List (List String)) (seen : List String) (r : List String),
      r ∈ firstSeen rows seen →
      ∃ pre post, rows = pre ++ r :: post ∧
        ∀ q ∈ pre, q.isEmpty = true ∨ keyOf q = "" ∨ keyOf q ≠ keyOf r := by
  intro rows
  induction rows with
  | nil => intro seen r hr; simp [firstSeen] at hr
  | cons row rest ih =>
    intro seen r hr
    simp only [firstSeen] at hr
    split at hr
    · rename_i hcond
      rcases List.mem_cons.mp hr with h | h
      · subst h
        exact ⟨[], rest, rfl, by simp⟩
      · rcases ih (keyOf row :: seen) r h with ⟨pre, post, heq, hpre⟩
        refine ⟨row :: pre, post, by simp [heq], ?_⟩
        intro q hq
        rcases List.mem_cons.mp hq with h2 | h2
        · subst h2
          right; right
          intro hkeq
          exact firstSeen_not_seen rest (keyOf q :: seen) r h
            (hkeq ▸ List.mem_cons_self (keyOf r) seen)
        · exact hpre q h2
    · rename_i hcond
      rcases ih seen r hr with ⟨pre, post, heq, hpre⟩
      refine ⟨row :: pre, post, by simp [heq], ?_⟩
      intro q hq
      rcases List.mem_cons.mp hq with h2 | h2
      · subst h2
        by_cases hq1 : q.isEmpty
        · exact Or.inl hq1
        · by_cases hq2 : keyOf q = ""
          · exact Or.inr (Or.inl hq2)
          · right; right
            have hseen : keyOf q ∈ seen := by
              by_contra hns
              exact hcond ⟨hq1, hq2, hns⟩
            intro hkeq
            exact firstSeen_not_seen rest seen r hr (hkeq ▸ hseen)
      · exact hpre q h2

theorem firstSeen_complete :
    ∀ (rows : List (List String)) (seen : List String) (row : List String),
      row ∈ rows → row.isEmpty = false → keyOf row ≠ "" →
      keyOf row ∈ (firstSeen rows seen).map keyOf ∨ keyOf row ∈ seen := by
  intro rows
  induction rows with
  | nil => intro seen row hmem; simp at hmem
  | cons r rest ih =>
    intro seen row hmem hne hkey
    simp only [firstSeen]
    rcases List.mem_cons.mp hmem with h | h
    · subst h
      split
      · exact Or.inl (by simp)
      · rename_i hcond
        have : keyOf row ∈ seen := by
          by_contra hns
          exact hcond ⟨by simp [hne], hkey, hns⟩
        exact Or.inr this
    · split
      · rename_i hcond
        rcases ih (keyOf r :: seen) row h hne hkey with h2 | h2
        · exact Or.inl (by simp only [List.map_cons]; exact List.mem_cons.mpr (Or.inr h2))
        · rcases List.mem_cons.mp h2 with h3 | h3
          · exact Or.inl (by simp [h3])
          · exact Or.inr h3
      · exact ih seen row h hne hkey

/-! ### Date/time parser lemmas -/

theorem data_mk (l : List Char) : (String.mk l).data = l := rfl

theorem daysInMonth_le_31 (y m : Nat) : daysInMonth y m ≤ 31 := by
  unfold daysInMonth
  split_ifs <;> omega

theorem parse_date_roundtrip {d m y : Nat} (hd1 : 1 ≤ d) (hm1 : 1 ≤ m) (hm2 : m ≤ 12)
    (hy1 : 1 ≤ y) (hy2 : y ≤ 9999) (hday : d ≤ daysInMonth y m) :
    parse_date ⟨pad2 d ++ '/' :: (pad2 m ++ '/' :: pad4 y)⟩
      = some ⟨renderISO y m d⟩ := by
  have hd31 : d ≤ 31 := le_trans hday (daysInMonth_le_31 y m)
  have hslash : ('/' : Char).isDigit = false := by decide
  have h1 : ('/' : Char) ∉ pad2 d := not_mem_of_allDigits (allDigits_pad2 (by omega)) hslash
  have h2 : ('/' : Char) ∉ pad2 m := not_mem_of_allDigits (allDigits_pad2 (by omega)) hslash
  have h3 : ('/' : Char) ∉ pad4 y := not_mem_of_allDigits (allDigits_pad4 (by omega)) hslash
  have hsplit : splitOn '/' (pad2 d ++ '/' :: (pad2 m ++ '/' :: pad4 y))
      = [pad2 d, pad2 m, pad4 y] := by
    rw [splitOn_append _ h1, splitOn_append _ h2, splitOn_no_sep h3]
  simp only [parse_date, data_mk, hsplit]
  split
  · rw [digitsToNat_pad2 (by omega), digitsToNat_pad2 (by omega), digitsToNat_pad4 (by omega)]
  · rename_i hP
    exact absurd ⟨allDigits_pad2 (by omega), by simp [pad2], by simp [pad2],
      allDigits_pad2 (by omega), by simp [pad2], by simp [pad2],
      allDigits_pad4 (by omega), by simp [pad4],
      by rw [digitsToNat_pad2 (by omega)]; exact hd1,
      by rw [digitsToNat_pad2 (by omega)]; exact hd31,
      by rw [digitsToNat_pad2 (by omega)]; exact hm1,
      by rw [digitsToNat_pad2 (by omega)]; exact hm2,
      by rw [digitsToNat_pad4 (by omega)]; exact hy1,
      by rw [digitsToNat_pad2 (by omega), digitsToNat_pad2 (by omega),
        digitsToNat_pad4 (by omega)]; exact hday⟩ hP

theorem parse_date_some_inv {s o : String} (h : parse_date s = some o) :
    ∃ dcs mcs ycs : List Char,
      s.data = dcs ++ '/' :: (mcs ++ '/' :: ycs)
      ∧ allDigits dcs = true ∧ 1 ≤ dcs.length ∧ dcs.length ≤ 2
      ∧ allDigits mcs = true ∧ 1 ≤ mcs.length ∧ mcs.length ≤ 2
      ∧ allDigits ycs = true ∧ ycs.length = 4
      ∧ 1 ≤ digitsToNat dcs ∧ 1 ≤ digitsToNat mcs ∧ digitsToNat mcs ≤ 12
      ∧ 1 ≤ digitsToNat ycs
      ∧ digitsToNat dcs ≤ daysInMonth (digitsToNat ycs) (digitsToNat mcs)
      ∧ o = ⟨renderISO (digitsToNat ycs) (digitsToNat mcs) (digitsToNat dcs)⟩ := by
  unfold parse_date at h
  split at h
  · rename_i dcs mcs ycs hsplit
    split at h
    · rename_i hP
      refine ⟨dcs, mcs, ycs, splitOn_three_inv hsplit, hP.1, hP.2.1, hP.2.2.1,
        hP.2.2.2.1, hP.2.2.2.2.1, hP.2.2.2.2.2.1, hP.2.2.2.2.2.2.1,
        hP.2.2.2.2.2.2.2.1, hP.2.2.2.2.2.2.2.2.1,
        hP.2.2.2.2.2.2.2.2.2.2.1, hP.2.2.2.2.2.2.2.2.2.2.2.1,
        hP.2.2.2.2.2.2.2.2.2.2.2.2.1, hP.2.2.2.2.2.2.2.2.2.2.2.2.2, ?_⟩
      exact (Option.some_inj.mp h).symm
    · cases h
  · cases h

theorem parse_time_roundtrip_pm {h m : Nat} (hh1 : 1 ≤ h) (hh2 : h ≤ 12) (hm : m ≤ 59) :
    parse_time ⟨pad2 h ++ ':' :: (pad2 m ++ ' ' :: ['P', 'M'])⟩
      = some ⟨pad2 (h % 12 + 12) ++ ':' :: (pad2 m ++ ':' :: pad2 0)⟩ := by
  have hcolon : (':' : Char).isDigit = false := by decide
  have h1 : (':' : Char) ∉ pad2 h := not_mem_of_allDigits (allDigits_pad2 (by omega)) hcolon
  have h2 : (':' : Char) ∉ pad2 m ++ ' ' :: ['P', 'M'] := by
    intro hmem
    rcases List.mem_append.mp hmem with hc | hc
    · exact absurd (List.all_eq_true.mp (allDigits_pad2 (show m < 100 by omega)) _ hc)
        (by decide)
    · simp at hc
  have hsplit : splitOn ':' (pad2 h ++ ':' :: (pad2 m ++ ' ' :: ['P', 'M']))
      = [pad2 h, pad2 m ++ ' ' :: ['P', 'M']] := by
    rw [splitOn_append _ h1, splitOn_no_sep h2]
  have halld : ∀ c ∈ pad2 m, c.isDigit = true :=
    fun c hc => List.all_eq_true.mp (allDigits_pad2 (show m < 100 by omega)) c hc
  have htake : (pad2 m ++ ' ' :: ['P', 'M']).takeWhile Char.isDigit = pad2 m :=
    takeWhile_all_append _ halld (by decide)
  have hdrop : (pad2 m ++ ' ' :: ['P', 'M']).dropWhile Char.isDigit = ' ' :: ['P', 'M'] :=
    dropWhile_all_append _ halld (by decide)
  have hw : (' ' :: ['P', 'M']).takeWhile pyWs = [' '] := by decide
  have hp : (' ' :: ['P', 'M']).dropWhile pyWs = ['P', 'M'] := by decide
  simp only [parse_time, data_mk, hsplit, htake, hdrop, hw, hp]
  split
  · rw [digitsToNat_pad2 (show h < 100 by omega), digitsToNat_pad2 (show m < 100 by omega),
      if_pos (show (['P', 'M'].map Char.toUpper = "PM".data) by decide)]
    have harith : (if h = 12 then 12 else h + 12) = h % 12 + 12 := by
      by_cases hc : h = 12
      · simp [hc]
      · rw [if_neg hc]; omega
    rw [harith]
  · rename_i hP
    exact absurd ⟨allDigits_pad2 (by omega), by simp [pad2], by simp [pad2],
      by rw [digitsToNat_pad2 (show h < 100 by omega)]; exact hh1,
      by rw [digitsToNat_pad2 (show h < 100 by omega)]; exact hh2,
      by simp [pad2], by simp [pad2],
      by rw [digitsToNat_pad2 (show m < 100 by omega)]; exact hm,
      by decide, Or.inr (by decide)⟩ hP

theorem parse_time_roundtrip_am {h m : Nat} (hh1 : 1 ≤ h) (hh2 : h ≤ 12) (hm : m ≤ 59) :
    parse_time ⟨pad2 h ++ ':' :: (pad2 m ++ ' ' :: ['A', 'M'])⟩
      = some ⟨pad2 (h % 12) ++ ':' :: (pad2 m ++ ':' :: pad2 0)⟩ := by
  have hcolon : (':' : Char).isDigit = false := by decide
  have h1 : (':' : Char) ∉ pad2 h := not_mem_of_allDigits (allDigits_pad2 (by omega)) hcolon
  have h2 : (':' : Char) ∉ pad2 m ++ ' ' :: ['A', 'M'] := by
    intro hmem
    rcases List.mem_append.mp hmem with hc | hc
    · exact absurd (List.all_eq_true.mp (allDigits_pad2 (show m < 100 by omega)) _ hc)
        (by decide)
    · simp at hc
  have hsplit : splitOn ':' (pad2 h ++ ':' :: (pad2 m ++ ' ' :: ['A', 'M']))
      = [pad2 h, pad2 m ++ ' ' :: ['A', 'M']] := by
    rw [splitOn_append _ h1, splitOn_no_sep h2]
  have halld : ∀ c ∈ pad2 m, c.isDigit = true :=
    fun c hc => List.all_eq_true.mp (allDigits_pad2 (show m < 100 by omega)) c hc
  have htake : (pad2 m ++ ' ' :: ['A', 'M']).takeWhile Char.isDigit = pad2 m :=
    takeWhile_all_append _ halld (by decide)
  have hdrop : (pad2 m ++ ' ' :: ['A', 'M']).dropWhile Char.isDigit = ' ' :: ['A', 'M'] :=
    dropWhile_all_append _ halld (by decide)
  have hw : (' ' :: ['A', 'M']).takeWhile pyWs = [' '] := by decide
  have hp : (' ' :: ['A', 'M']).dropWhile pyWs = ['A', 'M'] := by decide
  simp only [parse_time, data_mk, hsplit, htake, hdrop, hw, hp]
  split
  · rw [digitsToNat_pad2 (show h < 100 by omega), digitsToNat_pad2 (show m < 100 by omega),
      if_neg (show ¬(['A', 'M'].map Char.toUpper = "PM".data) by decide)]
    have harith : (if h = 12 then 0 else h) = h % 12 := by
      by_cases hc : h = 12
      · simp [hc]
      · rw [if_neg hc]; omega
    rw [harith]
  · rename_i hP
    exact absurd ⟨allDigits_pad2 (by omega), by simp [pad2], by simp [pad2],
      by rw [digitsToNat_pad2 (show h < 100 by omega)]; exact hh1,
      by rw [digitsToNat_pad2 (show h < 100 by omega)]; exact hh2,
      by simp [pad2], by simp [pad2],
      by rw [digitsToNat_pad2 (show m < 100 by omega)]; exact hm,
      by decide, Or.inl (by decide)⟩ hP

theorem parse_time_some_inv {s o : String} (h : parse_time s = some o) :
    ∃ hcs rest : List Char,
      s.data = hcs ++ ':' :: rest
      ∧ allDigits hcs = true ∧ 1 ≤ hcs.length ∧ hcs.length ≤ 2
      ∧ 1 ≤ digitsToNat hcs ∧ digitsToNat hcs ≤ 12
      ∧ 1 ≤ (rest.takeWhile Char.isDigit).length
      ∧ (rest.takeWhile Char.isDigit).length ≤ 2
      ∧ digitsToNat (rest.takeWhile Char.isDigit) ≤ 59
      ∧ 1 ≤ ((rest.dropWhile Char.isDigit).takeWhile pyWs).length
      ∧ (((rest.dropWhile Char.isDigit).dropWhile pyWs).map Char.toUpper = "AM".data
        ∨ ((rest.dropWhile Char.isDigit).dropWhile pyWs).map Char.toUpper = "PM".data)
      ∧ ∃ hr mt : Nat, hr ≤ 23 ∧ mt ≤ 59
        ∧ o = ⟨pad2 hr ++ ':' :: (pad2 mt ++ ':' :: pad2 0)⟩ := by
  unfold parse_time at h
  split at h
  · rename_i hcs rest hsplit
    simp only at h
    split at h
    · rename_i hP
      refine ⟨hcs, rest, splitOn_two_inv hsplit, hP.1, hP.2.1, hP.2.2.1,
        hP.2.2.2.1, hP.2.2.2.2.1, hP.2.2.2.2.2.1, hP.2.2.2.2.2.2.1,
        hP.2.2.2.2.2.2.2.1, hP.2.2.2.2.2.2.2.2.1, hP.2.2.2.2.2.2.2.2.2, ?_⟩
      refine ⟨(if ((rest.dropWhile Char.isDigit).dropWhile pyWs).map Char.toUpper = "PM".data
          then (if digitsToNat hcs = 12 then 12 else digitsToNat hcs + 12)
          else (if digitsToNat hcs = 12 then 0 else digitsToNat hcs)),
        digitsToNat (rest.takeWhile Char.isDigit), ?_, hP.2.2.2.2.2.2.2.1, ?_⟩
      · have hhv : digitsToNat hcs ≤ 12 := hP.2.2.2.2.1
        split_ifs <;> omega
      · exact (Option.some_inj.mp h).symm
    · cases h
  · cases h

/-! ### Escaper lemmas -/

theorem doubleQuotes_eq_flatMap (l : List Char) :
    doubleQuotes l = l.flatMap (fun c => if c = squote then [squote, squote] else [c]) := by
  induction l with
  | nil => simp [doubleQuotes]
  | cons c cs ih =>
    simp only [doubleQuotes, List.flatMap_cons]
    split <;> simp [ih]

/-! ### Substring-test lemmas -/

theorem listPrefixOf_refl : ∀ l : List Char, listPrefixOf l l = true := by
  intro l
  induction l with
  | nil => rfl
  | cons c cs ih => simp [listPrefixOf, ih]

theorem listSub_refl : ∀ n : List Char, listSub n n = true := by
  intro n
  cases n with
  | nil => rfl
  | cons c cs => simp [listSub, listPrefixOf_refl]

theorem listSub_append_left :
    ∀ (a n b : List Char), listSub n b = true → listSub n (a ++ b) = true := by
  intro a
  induction a with
  | nil => intro n b h; simpa using h
  | cons c cs ih =>
    intro n b h
    simp only [List.cons_append, listSub, Bool.or_eq_true]
    exact Or.inr (ih n b h)

/-! ### Claim theorems -/

/-- C1: for every run and every generated batch statement, the status column
appears in the INSERT column list (as its last column), every rendered value
tuple ends with the literal REGISTERED in single quotes as the status value,
and the ON CONFLICT ... DO UPDATE SET assignment list never references the
status column. -/
theorem c1_status_invariant (rows : List (List String)) (out : List String)
    (h : processRows rows [] = Except.ok out) (b : List String)
    (hb : b ∈ batches out) :
    listSub ", status) VALUES".data insert_header.data = true
    ∧ (∀ t ∈ b, listSub (", " ++ registeredLit ++ ")").data t.data = true)
    ∧ listSub "status".data update_set_clause.data = false := by
  refine ⟨by decide, ?_, by decide⟩
  intro t ht
  have hout : t ∈ out := by
    have hflat : (batches out).flatten = out := batchesAux_flatten out.length out le_rfl
    rw [← hflat]
    exact List.mem_flatten.mpr ⟨b, hb, ht⟩
  rw [processRows_ok_spec rows [] out h] at hout
  rcases List.mem_map.mp hout with ⟨r, _, hrt⟩
  subst hrt
  simp only [renderOfRow, registeredLit, String.data_append, List.append_assoc]
  iterate 18 apply listSub_append_left
  exact listSub_refl _

/-- C1 witness: a concrete one-row run, its single batch. -/
theorem c1_status_invariant_witness :
    listSub ", status) VALUES".data insert_header.data = true
    ∧ (∀ t ∈ [renderOfRow ["A1", "N", "P", "PR", "C", "21/03/2024", "2:30 PM", "V", "I"]],
        listSub (", " ++ registeredLit ++ ")").data t.data = true)
    ∧ listSub "status".data update_set_clause.data = false :=
  c1_status_invariant
    [["A1", "N", "P", "PR", "C", "21/03/2024", "2:30 PM", "V", "I"]]
    [renderOfRow ["A1", "N", "P", "PR", "C", "21/03/2024", "2:30 PM", "V", "I"]]
    rfl
    [renderOfRow ["A1", "N", "P", "PR", "C", "21/03/2024", "2:30 PM", "V", "I"]]
    (by simp [batches, batchesAux])

/-- C2: when the row loop completes, the output tuples are exactly the
renderings of the kept rows (`firstSeen`): the kept rows form a sublist of
the input (first-seen CSV order preserved), their keys are pairwise distinct
(one tuple per application number), each kept row is the first row of the
input whose valid key equals its own, and every valid row key is represented;
later rows repeating a key are silently excluded. -/
theorem c2_dedup_first_seen (rows : List (List String)) (out : List String)
    (h : processRows rows [] = Except.ok out) :
    out = (firstSeen rows []).map renderOfRow
    ∧ List.Sublist (firstSeen rows []) rows
    ∧ ((firstSeen rows []).map keyOf).Nodup
    ∧ (∀ r ∈ firstSeen rows [], ∃ pre post, rows = pre ++ r :: post
        ∧ ∀ q ∈ pre, q.isEmpty = true ∨ keyOf q = "" ∨ keyOf q ≠ keyOf r)
    ∧ (∀ row ∈ rows, row.isEmpty = false → keyOf row ≠ "" →
        keyOf row ∈ (firstSeen rows []).map keyOf) :=
  ⟨processRows_ok_spec rows [] out h,
   firstSeen_sublist rows [],
   firstSeen_nodup rows [],
   fun r hr => firstSeen_first rows [] r hr,
   fun row hmem hne hkey => by
     rcases firstSeen_complete rows [] row hmem hne hkey with h2 | h2
     · exact h2
     · simp at h2⟩

/-- C2 witness: a run with a duplicated application number keeps only the
first occurrence. -/
theorem c2_dedup_first_seen_witness :
    [renderOfRow ["A", "N", "P", "R", "C", "21/03/2024", "2:30 PM", "V", "I"]]
      = (firstSeen [["A", "N", "P", "R", "C", "21/03/2024", "2:30 PM", "V", "I"],
          ["A", "x", "x", "x", "x", "x", "x", "x", "x"]] []).map renderOfRow :=
  (c2_dedup_first_seen
    [["A", "N", "P", "R", "C", "21/03/2024", "2:30 PM", "V", "I"],
     ["A", "x", "x", "x", "x", "x", "x", "x", "x"]]
    [renderOfRow ["A", "N", "P", "R", "C", "21/03/2024", "2:30 PM", "V", "I"]]
    rfl).1

/-- C3: the batch writer partitions the rendered-tuple sequence, in order,
into ceil(n/1000) consecutive nonempty groups of at most 1000 tuples each
(one INSERT statement per group); for 2500 tuples the group sizes are
1000, 1000, 500. -/
theorem c3_batching (l : List String) :
    (batches l).length = (l.length + 999) / 1000
    ∧ (∀ b ∈ batches l, 1 ≤ b.length ∧ b.length ≤ 1000)
    ∧ (batches l).flatten = l
    ∧ (l.length = 2500 → (batches l).map List.length = [1000, 1000, 500]) := by
  refine ⟨batchesAux_length l.length l le_rfl,
    fun b hb => batchesAux_mem l.length l b le_rfl hb,
    batchesAux_flatten l.length l le_rfl, ?_⟩
  intro h2500
  rw [show batches l = batchesAux l.length l from rfl,
    batchesAux_map_length l.length l le_rfl, h2500]
  decide

/-- C3 witness: 2500 records yield batches of sizes 1000, 1000, 500. -/
theorem c3_batching_witness :
    (batches (List.replicate 2500 "x")).map List.length = [1000, 1000, 500] :=
  (c3_batching (List.replicate 2500 "x")).2.2.2 (List.length_replicate 2500 "x")

/-- C4: the date normalizer maps "21/03/2024" to "2024-03-21" and the
wrong-format "2024-03-21" to null; it is a total function (parse failure
never raises), every calendar-valid DD/MM/YYYY input is reformatted to
ISO-8601, and every input accepted (non-null result) decomposes as
digits/digits/digits with the ISO reformatting as output. -/
theorem c4_date_normalizer :
    parse_date "21/03/2024" = some "2024-03-21"
    ∧ parse_date "2024-03-21" = none
    ∧ (∀ d m y : Nat, 1 ≤ d → 1 ≤ m → m ≤ 12 → 1 ≤ y → y ≤ 9999 →
        d ≤ daysInMonth y m →
        parse_date ⟨pad2 d ++ '/' :: (pad2 m ++ '/' :: pad4 y)⟩
          = some ⟨renderISO y m d⟩)
    ∧ (∀ s o : String, parse_date s = some o →
        ∃ dcs mcs ycs : List Char,
          s.data = dcs ++ '/' :: (mcs ++ '/' :: ycs)
          ∧ allDigits dcs = true ∧ 1 ≤ dcs.length ∧ dcs.length ≤ 2
          ∧ allDigits mcs = true ∧ 1 ≤ mcs.length ∧ mcs.length ≤ 2
          ∧ allDigits ycs = true ∧ ycs.length = 4
          ∧ 1 ≤ digitsToNat dcs ∧ 1 ≤ digitsToNat mcs ∧ digitsToNat mcs ≤ 12
          ∧ 1 ≤ digitsToNat ycs
          ∧ digitsToNat dcs ≤ daysInMonth (digitsToNat ycs) (digitsToNat mcs)
          ∧ o = ⟨renderISO (digitsToNat ycs) (digitsToNat mcs) (digitsToNat dcs)⟩) :=
  ⟨by decide, by decide,
   fun _ _ _ hd hm1 hm2 hy1 hy2 hday => parse_date_roundtrip hd hm1 hm2 hy1 hy2 hday,
   fun _ _ h => parse_date_some_inv h⟩

/-- C4 witness: the general round-trip at day 21, month 3, year 2024. -/
theorem c4_date_normalizer_witness :
    parse_date ⟨pad2 21 ++ '/' :: (pad2 3 ++ '/' :: pad4 2024)⟩
      = some ⟨renderISO 2024 3 21⟩ :=
  c4_date_normalizer.2.2.1 21 3 2024 (by omega) (by omega) (by omega) (by omega)
    (by omega) (by decide)

/-- C5: the time normalizer maps "2:30 PM" to "14:30:00" and the
wrong-format "14:30" to null; it is a total function (never raises), every
H:MM AM/PM input with hour 1-12 and minute 0-59 is converted to its
24-hour HH:MM:SS form, and every accepted input decomposes as the 12-hour
pattern with a 24-hour HH:MM:SS output. -/
theorem c5_time_normalizer :
    parse_time "2:30 PM" = some "14:30:00"
    ∧ parse_time "14:30" = none
    ∧ (∀ h m : Nat, 1 ≤ h → h ≤ 12 → m ≤ 59 →
        parse_time ⟨pad2 h ++ ':' :: (pad2 m ++ ' ' :: ['P', 'M'])⟩
          = some ⟨pad2 (h % 12 + 12) ++ ':' :: (pad2 m ++ ':' :: pad2 0)⟩
        ∧ parse_time ⟨pad2 h ++ ':' :: (pad2 m ++ ' ' :: ['A', 'M'])⟩
          = some ⟨pad2 (h % 12) ++ ':' :: (pad2 m ++ ':' :: pad2 0)⟩)
    ∧ (∀ s o : String, parse_time s = some o →
        ∃ hcs rest : List Char,
          s.data = hcs ++ ':' :: rest
          ∧ allDigits hcs = true ∧ 1 ≤ hcs.length ∧ hcs.length ≤ 2
          ∧ 1 ≤ digitsToNat hcs ∧ digitsToNat hcs ≤ 12
          ∧ ∃ hr mt : Nat, hr ≤ 23 ∧ mt ≤ 59
            ∧ o = ⟨pad2 hr ++ ':' :: (pad2 mt ++ ':' :: pad2 0)⟩) :=
  ⟨by decide, by decide,
   fun _ _ hh1 hh2 hm =>
     ⟨parse_time_roundtrip_pm hh1 hh2 hm, parse_time_roundtrip_am hh1 hh2 hm⟩,
   fun _ _ h => by
     rcases parse_time_some_inv h with
       ⟨hcs, rest, h1, h2, h3, h4, h5, h6, _, _, _, _, _, hout⟩
     exact ⟨hcs, rest, h1, h2, h3, h4, h5, h6, hout⟩⟩

/-- C5 witness: the general round-trip at 2:30 PM and 2:30 AM. -/
theorem c5_time_normalizer_witness :
    parse_time ⟨pad2 2 ++ ':' :: (pad2 30 ++ ' ' :: ['P', 'M'])⟩
      = some ⟨pad2 (2 % 12 + 12) ++ ':' :: (pad2 30 ++ ':' :: pad2 0)⟩
    ∧ parse_time ⟨pad2 2 ++ ':' :: (pad2 30 ++ ' ' :: ['A', 'M'])⟩
      = some ⟨pad2 (2 % 12) ++ ':' :: (pad2 30 ++ ':' :: pad2 0)⟩ :=
  c5_time_normalizer.2.2.1 2 30 (by omega) (by omega) (by omega)

/-- C6: the SQL literal escaper maps an absent value to the bare keyword
NULL, and a present string to that string wrapped in single quotes with
each embedded single quote doubled and every other character unchanged;
the name OBrien with an interior quote renders with the quote doubled. -/
theorem c6_escape_sql :
    escape_sql none = "NULL"
    ∧ escape_sql (some ⟨'O' :: squote :: "Brien".data⟩)
        = ⟨squote :: 'O' :: squote :: squote :: ("Brien".data ++ [squote])⟩
    ∧ (∀ s : String, (escape_sql (some s)).data
        = squote :: (s.data.flatMap
            (fun c => if c = squote then [squote, squote] else [c]) ++ [squote])) := by
  refine ⟨rfl, by decide, ?_⟩
  intro s
  simp [escape_sql, String.data_append, doubleQuotes_eq_flatMap, squoteStr]

/-- C7: a row whose application number is empty after trimming is skipped
silently: it contributes no tuple, adds nothing to the deduplication set,
and the rest of the input is processed exactly as if the row were absent,
regardless of its other fields. -/
theorem c7_empty_app_no_skip (row : List String) (rest : List (List String))
    (seen : List String) (h : keyOf row = "") :
    processRows (row :: rest) seen = processRows rest seen := by
  by_cases h1 : row.isEmpty
  · simp only [processRows, if_pos h1]
  · simp only [processRows]
    rw [if_neg (by simp [h1]), if_pos (Or.inl h)]

/-- C7 witness: a blank application number with junk in other fields. -/
theorem c7_empty_app_no_skip_witness :
    processRows [["  ", "junk", "junk"]] [] = processRows [] [] :=
  c7_empty_app_no_skip ["  ", "junk", "junk"] [] [] (by decide)

/-- C8 counterexample: the row ["", "x"] is a non-empty data row with fewer
than 9 columns, yet the run completes normally (the empty application number
makes the loop skip the row before any out-of-range column access). -/
theorem c8_counterexample :
    (["", "x"] : List String) ≠ []
    ∧ (["", "x"] : List String).length < 9
    ∧ run_program [["Application No"], ["", "x"]] = Except.ok commentHeader :=
  ⟨by decide, by decide, rfl⟩

/-- C8 amended: a non-empty data row with fewer than 9 columns whose trimmed
application number is non-empty and not previously seen makes processing die
with an uncaught IndexError; short rows with an empty or duplicate
application number are instead skipped silently. -/
theorem c8_short_row_fatal (row : List String) (rest : List (List String))
    (seen : List String) (h1 : row ≠ []) (h2 : row.length < 9)
    (h3 : keyOf row ≠ "") (h4 : keyOf row ∉ seen) :
    processRows (row :: rest) seen = Except.error ProgError.indexError := by
  have he : row.isEmpty = false := by
    cases row with
    | nil => exact absurd rfl h1
    | cons a as => rfl
  simp only [processRows]
  rw [if_neg (by simp [he]),
    if_neg (show ¬(keyOf row = "" ∨ keyOf row ∈ seen) from by tauto),
    if_pos h2]

/-- C8 amended witness: a 1-column row with a fresh application number. -/
theorem c8_short_row_fatal_witness :
    processRows [["A7"]] [] = Except.error ProgError.indexError :=
  c8_short_row_fatal ["A7"] [] [] (by decide) (by decide) (by decide) (by simp)

/-- C9 counterexample: a CSV holding only the header row completes and
produces just the comment header with zero INSERT statements, refuting the
claim that every completed run emits one or more statements. -/
theorem c9_counterexample :
    run_program [["Application No"]] = Except.ok commentHeader
    ∧ listSub "INSERT".data commentHeader.data = false
    ∧ (batches []).length = 0 :=
  ⟨rfl, by decide, rfl⟩

/-- C9 amended: every completed run writes the single comment header line
first, followed by one INSERT...ON CONFLICT statement per batch (each ending
in a blank line) — that is ceil(n/1000) statements for n rendered tuples,
which is zero when no record survives and one or more otherwise. -/
theorem c9_output_shape (rows : List (List String)) (vals : List String)
    (text : String) (hr : rows ≠ [])
    (hv : processRows rows.tail [] = Except.ok vals)
    (h : run_program rows = Except.ok text) :
    text = commentHeader ++ String.join ((batches vals).map sql_statement)
    ∧ (batches vals).length = (vals.length + 999) / 1000
    ∧ ∀ b ∈ batches vals,
        sql_statement b
          = insert_header ++ String.intercalate ",\n" b
            ++ "\nON CONFLICT (application_number) DO UPDATE SET \n"
            ++ update_set_clause ++ "\n\n" := by
  cases rows with
  | nil => exact absurd rfl hr
  | cons hdr rest =>
    simp only [run_program, List.tail_cons] at h hv
    rw [hv] at h
    exact ⟨(Except.ok.inj h).symm, batchesAux_length vals.length vals le_rfl,
      fun b _ => rfl⟩

/-- C9 amended witness: the header-only run. -/
theorem c9_output_shape_witness :
    commentHeader
      = commentHeader ++ String.join ((batches ([] : List String)).map sql_statement) :=
  (c9_output_shape [["Application No"]] [] commentHeader (by simp) rfl rfl).1

/-- C10: a completely empty CSV (no rows, not even a header) makes the
header skip die with an uncaught StopIteration; the program terminates with
that error and never produces any output text (the output file is opened
only after row processing succeeds). -/
theorem c10_empty_input :
    run_program [] = Except.error ProgError.stopIteration := rfl

end SeedSql
